import Mathlib

/-!
Shallow embedding of the BackupOpt repository (src/backup_processing.py,
src/storage_backends.py) and proofs about its fragment split/merge pipeline,
parallel batch handling and arcname derivation.

Modelling conventions:
* A file's bytes are a `List Nat`; a file name (Python `str`) is a `List Nat`
  of Unicode code points (`Name`), so Python string comparison, `startswith`,
  `endswith` and `in` translate to explicit list functions.
* A directory is its listing (`os.listdir` order, arbitrary) together with a
  content map from names to bytes.
* Each Dask-delayed work unit catches its own exceptions and returns an
  `(identifier, success)` pair; a batch (`dask.compute`) is the list of those
  pairs in task order.  Failure injection is an oracle parameter.
* The pyzipper archive container is external to the repository; its listing
  outcome (member list / raised error) is an input to `restore_from_archive`,
  matching the library calls the source makes.
-/

instance {ε α : Type _} [DecidableEq ε] [DecidableEq α] : DecidableEq (Except ε α)
  | .ok x, .ok y =>
    if h : x = y then .isTrue (by rw [h]) else .isFalse (by intro he; cases he; exact h rfl)
  | .ok _, .error _ => .isFalse (by intro h; cases h)
  | .error _, .ok _ => .isFalse (by intro h; cases h)
  | .error e, .error f =>
    if h : e = f then .isTrue (by rw [h]) else .isFalse (by intro he; cases he; exact h rfl)

namespace BackupOpt

abbrev Byte := Nat

/-- A Python string, as its list of Unicode code points. -/
abbrev Name := List Nat

/-- Code points of a Lean string literal, used to write concrete names. -/
def codes (s : String) : Name := s.data.map Char.toNat

/-- Python `s.startswith(p)`: `p` is a prefix of `s`. -/
def startsWithL : Name → Name → Bool
  | _, [] => true
  | [], _ :: _ => false
  | a :: s, b :: p => (a == b) && startsWithL s p

/-- Python `s.endswith(t)`: `t` is a suffix of `s`. -/
def endsWithL (s t : Name) : Bool := startsWithL s.reverse t.reverse

/-- Python `sub in s`: `sub` occurs contiguously inside `s`. -/
def substrAt : Name → Name → Bool
  | [], sub => sub.isEmpty
  | c :: rest, sub => startsWithL (c :: rest) sub || substrAt rest sub

/-- Python string `<`: lexicographic comparison of code points, a proper
nonempty extension being greater. -/
def ltName : Name → Name → Bool
  | [], [] => false
  | [], _ :: _ => true
  | _ :: _, [] => false
  | a :: s, b :: t => decide (a < b) || (a == b && ltName s t)

/-- Python string `<=`. -/
def leName (a b : Name) : Bool := ltName a b || a == b

/-- The `<=` ordering on names as a relation, used to model Python
`sorted` (ascending). -/
def nameLeR (a b : Name) : Prop := leName a b = true

instance : DecidableRel nameLeR := fun a b =>
  inferInstanceAs (Decidable (leName a b = true))

theorem ltName_irrefl : ∀ a : Name, ltName a a = false := by
  intro a
  induction a with
  | nil => rfl
  | cons x s ih => simp [ltName, ih]

theorem ltName_trans : ∀ a b c : Name,
    ltName a b = true → ltName b c = true → ltName a c = true := by
  intro a
  induction a with
  | nil =>
    intro b c hab hbc
    cases b with
    | nil => simp [ltName] at hab
    | cons y t =>
      cases c with
      | nil => simp [ltName] at hbc
      | cons z u => rfl
  | cons x s ih =>
    intro b c hab hbc
    cases b with
    | nil => simp [ltName] at hab
    | cons y t =>
      cases c with
      | nil => simp [ltName] at hbc
      | cons z u =>
        simp [ltName] at hab hbc ⊢
        rcases hab with h1 | ⟨he, h2⟩ <;> rcases hbc with g1 | ⟨ge, g2⟩
        · exact Or.inl (Nat.lt_trans h1 g1)
        · exact Or.inl (ge ▸ h1)
        · exact Or.inl (he ▸ g1)
        · exact Or.inr ⟨he.trans ge, ih t u h2 g2⟩

theorem ltName_connex : ∀ a b : Name,
    ltName a b = false → ltName b a = false → a = b := by
  intro a
  induction a with
  | nil =>
    intro b hab _
    cases b with
    | nil => rfl
    | cons y t => simp [ltName] at hab
  | cons x s ih =>
    intro b hab hba
    cases b with
    | nil => simp [ltName] at hba
    | cons y t =>
      simp [ltName] at hab hba
      have hxy : x = y := by omega
      subst hxy
      have := ih t (hab.2 rfl) (hba.2 rfl)
      rw [this]

instance : IsTotal Name nameLeR := by
  constructor
  intro a b
  unfold nameLeR leName
  rcases h : ltName a b with _ | _
  · rcases h2 : ltName b a with _ | _
    · left
      simp [ltName_connex a b h h2]
    · right
      simp [h2]
  · left
    simp [h]

instance : IsTrans Name nameLeR := by
  constructor
  intro a b c hab hbc
  unfold nameLeR leName at hab hbc ⊢
  simp at hab hbc ⊢
  rcases hab with h1 | h1 <;> rcases hbc with h2 | h2
  · exact Or.inl (ltName_trans a b c h1 h2)
  · exact Or.inl (h2 ▸ h1)
  · exact Or.inl (h1 ▸ h2)
  · exact Or.inr (h1.trans h2)

instance : IsAntisymm Name nameLeR := by
  constructor
  intro a b hab hba
  unfold nameLeR leName at hab hba
  simp at hab hba
  rcases hab with h1 | h1
  · rcases hba with h2 | h2
    · have := ltName_trans a b a h1 h2
      rw [ltName_irrefl] at this
      exact absurd this (by simp)
    · exact h2.symm
  · exact h1

/-- Python `sorted(l)` on strings: ascending stable sort by `<=`. -/
def pySorted (l : List Name) : List Name := l.insertionSort nameLeR

/-- Decimal digits, fuel-driven so that the kernel can evaluate it; the
fuel is never exhausted when it is at least the value (see
`natDigits_eq`). -/
def natDigitsF : Nat → Nat → List Nat
  | 0, n => [n]
  | f + 1, n => if n < 10 then [n] else natDigitsF f (n / 10) ++ [n % 10]

/-- Decimal digits of a natural number, most significant first
(`[n]` for `n < 10`), each digit as a value `< 10`. -/
def natDigits (n : Nat) : List Nat := natDigitsF n n

theorem natDigitsF_congr : ∀ f g n, n ≤ f → n ≤ g → natDigitsF f n = natDigitsF g n := by
  intro f
  induction f with
  | zero =>
    intro g n hf _
    interval_cases n
    cases g with
    | zero => rfl
    | succ h => simp [natDigitsF]
  | succ f ih =>
    intro g n hf hg
    cases g with
    | zero =>
      interval_cases n
      simp [natDigitsF]
    | succ g =>
      simp only [natDigitsF]
      by_cases h : n < 10
      · simp [h]
      · simp only [h, if_false]
        rw [ih g (n / 10) (by omega) (by omega)]

/-- The defining recursion of `natDigits`. -/
theorem natDigits_eq (n : Nat) :
    natDigits n = if n < 10 then [n] else natDigits (n / 10) ++ [n % 10] := by
  unfold natDigits
  cases hn : n with
  | zero => simp [natDigitsF]
  | succ m =>
    simp only [natDigitsF]
    by_cases h : m + 1 < 10
    · simp [h]
    · simp only [h, if_false]
      rw [natDigitsF_congr m ((m + 1) / 10) ((m + 1) / 10) (by omega) (by omega)]

/-- Python `f"{n:03d}"` for `n >= 0`: the decimal digits of `n` as code
points, left-padded with the code of the digit zero to width at least 3. -/
def pad3 (n : Nat) : Name :=
  let ds := (natDigits n).map (fun d => 48 + d)
  List.replicate (3 - ds.length) 48 ++ ds

/-- Fragment file name built by `split_file` (backup_processing.py:183):
`f"{base_filename}.part{file_number:03d}"`. -/
def fragName (base : Name) (i : Nat) : Name := base ++ codes ".part" ++ pad3 i

/-- One entry of the suffix tuple checked by `merge_files`
(backup_processing.py:209): `f".part{i:03d}"`. -/
def partSuffix (i : Nat) : Name := codes ".part" ++ pad3 i

/-- The fragment filter of `merge_files` (backup_processing.py:209):
`f.startswith(base) and f.endswith(tuple(f".part{i:03d}" for i in range(1000)))`. -/
def isFragmentName (base f : Name) : Bool :=
  startsWithL f base && (List.range 1000).any (fun i => endsWithL f (partSuffix i))

/-- Chunking, fuel-driven so that the kernel can evaluate it; the fuel is
never exhausted when it is at least the list length (see
`chunksAux_cons`). -/
def chunksF (sz : Nat) : Nat → List Byte → List (List Byte)
  | _, [] => []
  | 0, _ :: _ => []
  | f + 1, b :: rest => (b :: rest.take sz) :: chunksF sz f (rest.drop sz)

/-- The successive chunks returned by `f_in.read(size)` for a positive read
size `sz + 1` (backup_processing.py:178-181): maximal blocks of `sz + 1`
bytes, the last one possibly shorter, none empty. -/
def chunksAux (sz : Nat) (data : List Byte) : List (List Byte) :=
  chunksF sz data.length data

theorem chunksF_congr (sz : Nat) : ∀ f g data, data.length ≤ f → data.length ≤ g →
    chunksF sz f data = chunksF sz g data := by
  intro f
  induction f with
  | zero =>
    intro g data hf _
    cases data with
    | nil => cases g <;> rfl
    | cons b rest => simp at hf
  | succ f ih =>
    intro g data hf hg
    cases data with
    | nil => cases g <;> rfl
    | cons b rest =>
      cases g with
      | zero => simp at hg
      | succ g =>
        simp only [List.length_cons] at hf hg
        simp only [chunksF, List.cons.injEq, true_and]
        exact ih g (rest.drop sz) (by simp; omega) (by simp; omega)

theorem chunksAux_nil (sz : Nat) : chunksAux sz [] = [] := rfl

/-- The defining recursion of `chunksAux`. -/
theorem chunksAux_cons (sz : Nat) (b : Byte) (rest : List Byte) :
    chunksAux sz (b :: rest) = (b :: rest.take sz) :: chunksAux sz (rest.drop sz) := by
  unfold chunksAux
  simp only [List.length_cons, chunksF, List.cons.injEq, true_and]
  exact chunksF_congr sz rest.length (rest.drop sz).length (rest.drop sz)
    (by simp) (by simp)

/-- The chunk sequence produced by the `while True: chunk = f_in.read(size)`
loop of `split_file` for an arbitrary integer `size`, following Python file
semantics: `read(k)` for `k < 0` reads the whole remainder (so one chunk
holding the whole file, when nonempty), `read(0)` returns an empty bytes
object, which immediately breaks the loop, and `read(k)` for `k > 0` reads
blocks of `k` bytes. -/
def readChunks (size : Int) (data : List Byte) : List (List Byte) :=
  if size < 0 then (if data.isEmpty then [] else [data])
  else if size = 0 then []
  else chunksAux (size.toNat - 1) data

/-- The fragment (name, bytes) pairs created by `split_file`, with the
1-based counter `file_number` threaded through as in
backup_processing.py:174,182. -/
def fragList (base : Name) : Nat → List (List Byte) → List (Name × List Byte)
  | _, [] => []
  | n, c :: cs => (fragName base (n + 1), c) :: fragList base (n + 1) cs

inductive SplitError where
  | fileNotFound
  | fragmentWriteFailed (failedNames : List Name)
deriving DecidableEq

/-- Model of `split_file` (backup_processing.py:167-197).  The input file is `none`
when absent (`FileNotFoundError`), otherwise its bytes.  `writeOk` is the
outcome oracle for the Dask `write_fragment` units (each unit catches its
own exception and reports `(path, False)` on failure,
backup_processing.py:156-165).  When some fragment writes fail the call
raises `IOError` listing the failed fragment names
(backup_processing.py:191-194); otherwise it returns the fragments
directory, modelled as the list of fragments written. -/
def split_file (writeOk : Name → Bool) (file : Option (List Byte))
    (base : Name) (size : Int) : Except SplitError (List (Name × List Byte)) :=
  match file with
  | none => .error .fileNotFound
  | some data =>
    if ((((fragList base 0 (readChunks size data)).map
        (fun p => (p.1, writeOk p.1))).filter (fun r => !r.2)).map Prod.fst).isEmpty then
      .ok (fragList base 0 (readChunks size data))
    else
      .error (.fragmentWriteFailed ((((fragList base 0 (readChunks size data)).map
        (fun p => (p.1, writeOk p.1))).filter (fun r => !r.2)).map Prod.fst))

/-- A directory on disk: the `os.listdir` listing (arbitrary order) and the
bytes stored under each name. -/
structure Dir where
  listing : List Name
  content : Name → List Byte

/-- Python `dict`-like first-match lookup of a fragment's bytes by name
(reading the fragment file back, backup_processing.py:222). -/
def lookupD (frags : List (Name × List Byte)) (name : Name) : List Byte :=
  ((frags.find? (fun p => p.1 == name)).map Prod.snd).getD []

/-- The fragments directory state after a successful `split_file`: listing
in creation order, contents as written. -/
def splitDir (frags : List (Name × List Byte)) : Dir :=
  ⟨frags.map Prod.fst, lookupD frags⟩

inductive MergeError where
  | dirNotFound
  | noFragmentsFound
deriving DecidableEq

/-- The sorted fragment selection of `merge_files`
(backup_processing.py:206-210): filter the listing by `isFragmentName`,
then Python `sorted` (the source sorts the joined paths, which share the
directory prefix, so the order is the order of the names). -/
def selectFragments (d : Dir) (base : Name) : List Name :=
  pySorted (d.listing.filter (fun f => isFragmentName base f))

/-- Model of `merge_files` (backup_processing.py:199-226): select and sort the
fragments, fail with `FileNotFoundError` when none match, otherwise
concatenate their bytes in sorted order.  The existence check on the
fragments directory and per-fragment read errors are outside the pure
model (reads succeed on the in-model directory). -/
def merge_files (d : Dir) (base : Name) : Except MergeError (List Byte) :=
  if (selectFragments d base).isEmpty then .error .noFragmentsFound
  else .ok ((selectFragments d base).map d.content).flatten

/-! ### Restore orchestration (backup_processing.py:72-154) -/

/-- The substring tests applied to the RuntimeError message raised while
listing the archive under a password (backup_processing.py:111):
`"Bad password" in str(e) or "ęż" in str(e) or "CRC error" in str(e)`. -/
def pwErrMatches (msg : Name) : Bool :=
  substrAt msg (codes "Bad password") || substrAt msg (codes "ęż") ||
    substrAt msg (codes "CRC error")

/-- Outcome of `zf_main.namelist()` on the opened archive, an input to the
model since pyzipper is outside the repository: the member list, a raised
RuntimeError carrying a message, or a BadZipFile signature failure. -/
inductive ZipListResult where
  | ok (members : List Name)
  | runtimeErr (msg : Name)
  | badZipFile
deriving DecidableEq

inductive RestoreError where
  | fileNotFound
  | badPasswordValueError
  | invalidZipValueError
  | reraisedRuntime (msg : Name)
deriving DecidableEq

/-- Model of `extract_single_member` (backup_processing.py:72-86): the Dask unit
runs the extraction of one member (outcome given by the `runExtract`
oracle, errors carrying the exception text); any exception is caught
inside the unit and converted into `(member_name, False)`. -/
def extract_single_member (runExtract : Name → Except Name Unit) (member : Name) :
    Name × Bool :=
  match runExtract member with
  | .ok _ => (member, true)
  | .error _ => (member, false)

/-- Observable result of one `restore_from_archive` call: the members whose
destination directories were pre-created (backup_processing.py:122-129),
the dispatched extraction work units, the per-unit `(name, success)`
results, and the outcome — `ok n` is normal completion with `n` failed
extractions reported as a warning (backup_processing.py:140-144). -/
structure RestoreRun where
  prepared : List Name
  tasks : List Name
  results : List (Name × Bool)
  outcome : Except RestoreError Nat
deriving DecidableEq

/-- Model of `restore_from_archive` (backup_processing.py:89-154).  A RuntimeError
from the listing is matched against the wrong-password message patterns
only when a password was supplied, and is then converted to `ValueError`
before any directory creation or task dispatch; otherwise every listed
member gets its directory pre-created and one extraction unit, the batch
runs, and the call completes normally whatever the failure count. -/
def restore_from_archive (zipExists : Bool) (passwordGiven : Bool)
    (listMembers : ZipListResult) (runExtract : Name → Except Name Unit) : RestoreRun :=
  if !zipExists then ⟨[], [], [], .error .fileNotFound⟩
  else
    match listMembers with
    | .badZipFile => ⟨[], [], [], .error .invalidZipValueError⟩
    | .runtimeErr msg =>
      if passwordGiven && pwErrMatches msg then ⟨[], [], [], .error .badPasswordValueError⟩
      else ⟨[], [], [], .error (.reraisedRuntime msg)⟩
    | .ok members =>
      if members.isEmpty then ⟨[], [], [], .ok 0⟩
      else
        ⟨members, members, members.map (extract_single_member runExtract),
          .ok (((members.map (extract_single_member runExtract)).filter
            (fun r => !r.2)).length)⟩

/-! ### USB fragment copy (storage_backends.py:226-263) -/

inductive CopyError where
  | copyFailed (failedNames : List Name)
deriving DecidableEq

/-- Model of `copy_fragments_to_usb` (storage_backends.py:236-263): one Dask copy
unit per listed file whose name contains `".part"` (the source also checks
`os.path.isfile`; the in-model listing holds only files), each unit
reporting `(path, success)` with `copyOk` as the outcome oracle; any
failure raises `IOError` listing the failed names, otherwise the call
returns (modelled as the list of copied names). -/
def copy_fragments_to_usb (copyOk : Name → Bool) (d : Dir) : Except CopyError (List Name) :=
  if (((d.listing.filter (fun f => substrAt f (codes ".part"))).map
      (fun f => (f, copyOk f))).filter (fun r => !r.2)).isEmpty then
    .ok (d.listing.filter (fun f => substrAt f (codes ".part")))
  else
    .error (.copyFailed ((((d.listing.filter (fun f => substrAt f (codes ".part"))).map
      (fun f => (f, copyOk f))).filter (fun r => !r.2)).map Prod.fst))

/-! ### Arcname derivation (backup_processing.py:50-66) -/

/-- Python `posixpath` helper: strip trailing slashes unless the string is
all slashes. -/
def rstripSlash (h : Name) : Name :=
  if h.all (fun c => c == 47) then h else (h.reverse.dropWhile (fun c => c == 47)).reverse

/-- Model of `os.path.dirname` for POSIX paths: everything before the final slash. -/
def dirname (p : Name) : Name :=
  rstripSlash ((p.reverse.dropWhile (fun c => c != 47)).reverse)

/-- Model of `os.path.basename` for POSIX paths. -/
def basename (p : Name) : Name := (p.reverse.takeWhile (fun c => c != 47)).reverse

/-- Path components: split on the slash, dropping empty parts, as
`posixpath.relpath` does. -/
def splitComponents (p : Name) : List Name :=
  (List.splitOn 47 p).filter (fun c => !c.isEmpty)

/-- Length of the componentwise common prefix of two component lists
(`os.path.commonprefix` on split paths). -/
def commonLen : List Name → List Name → Nat
  | a :: s, b :: t => if a = b then commonLen s t + 1 else 0
  | _, _ => 0

def joinPath (parts : List Name) : Name := List.intercalate [47] parts

/-- Model of `os.path.relpath(path, start)` for already-absolute, already-normalized
POSIX paths: strip the common component prefix, then one `..` per remaining
`start` component followed by the remaining `path` components. -/
def relpath (path start : Name) : Name :=
  if (List.replicate ((splitComponents start).length - commonLen (splitComponents start)
      (splitComponents path)) (codes "..") ++ (splitComponents path).drop
      (commonLen (splitComponents start) (splitComponents path))).isEmpty then
    codes "."
  else
    joinPath (List.replicate ((splitComponents start).length - commonLen
      (splitComponents start) (splitComponents path)) (codes "..") ++
      (splitComponents path).drop (commonLen (splitComponents start)
        (splitComponents path)))

/-- One iteration of the matched-source-folder loop of
`create_backup_archive` (backup_processing.py:53-57): adopt `sf` when it
is a string prefix of the file path and strictly longer than the current
match. -/
def msfStep (filepath : Name) : Option Name → Name → Option Name
  | none, sf => if startsWithL filepath sf then some sf else none
  | some m, sf =>
    if startsWithL filepath sf then
      (if sf.length > m.length then some sf else some m)
    else some m

/-- The matched-source-folder loop of `create_backup_archive`
(backup_processing.py:52-57): keep the longest source folder that is a
string prefix of the file path (paths are taken as already absolute, as
after `os.path.abspath`). -/
def matchedSourceFolder (source_folders : List Name) (filepath : Name) : Option Name :=
  source_folders.foldl (msfStep filepath) none

/-- The arcname computed for one file (backup_processing.py:50-64):
relative to the parent directory of the longest matching source folder,
or the base filename when no source folder matches. -/
def computeArcname (source_folders : List Name) (filepath : Name) : Name :=
  match matchedSourceFolder source_folders filepath with
  | some m => relpath filepath (dirname m)
  | none => basename filepath

/-- The (arcname, source path) pairs written into the archive by
`create_backup_archive` (backup_processing.py:50-66), one per enumerated
file, in enumeration order. -/
def create_backup_archive (source_folders : List Name) (all_files : List Name) :
    List (Name × Name) :=
  all_files.map (fun fp => (computeArcname source_folders fp, fp))

/-! ### String lemmas -/

theorem startsWithL_nil (s : Name) : startsWithL s [] = true := by
  cases s <;> rfl

theorem startsWithL_append (p r : Name) : startsWithL (p ++ r) p = true := by
  induction p with
  | nil => exact startsWithL_nil r
  | cons a s ih => simp [startsWithL, ih]

theorem endsWithL_append (r t : Name) : endsWithL (r ++ t) t = true := by
  unfold endsWithL
  rw [List.reverse_append]
  exact startsWithL_append t.reverse r.reverse

theorem startsWithL_eq_false_of_ne :
    ∀ (k : Nat) (s p : Name) (x y : Nat),
    s[k]? = some x → p[k]? = some y → x ≠ y → startsWithL s p = false := by
  intro k
  induction k with
  | zero =>
    intro s p x y hs hp hxy
    cases s with
    | nil => simp at hs
    | cons b s2 =>
      cases p with
      | nil => simp at hp
      | cons a p2 =>
        simp at hs hp
        subst hs; subst hp
        simp [startsWithL]
        intro h
        exact absurd h hxy
  | succ k ih =>
    intro s p x y hs hp hxy
    cases s with
    | nil => simp at hs
    | cons b s2 =>
      cases p with
      | nil => simp at hp
      | cons a p2 =>
        simp only [List.getElem?_cons_succ] at hs hp
        simp [startsWithL, ih s2 p2 x y hs hp hxy]

/-! ### Decimal digit and `pad3` lemmas -/

theorem natDigits_all_lt10 (n : Nat) : ∀ d ∈ natDigits n, d < 10 := by
  induction n using Nat.strong_induction_on with
  | _ n ih =>
    rw [natDigits_eq]
    by_cases h : n < 10
    · simp only [h, if_true]
      intro d hd
      simp at hd
      omega
    · simp only [h, if_false]
      intro d hd
      rcases List.mem_append.mp hd with hd | hd
      · exact ih (n / 10) (by omega) d hd
      · simp at hd
        omega

theorem natDigits_eq1 (n : Nat) (h : n < 10) : natDigits n = [n] := by
  rw [natDigits_eq]
  simp [h]

theorem natDigits_eq2 (n : Nat) (h1 : 10 ≤ n) (h2 : n < 100) :
    natDigits n = [n / 10, n % 10] := by
  rw [natDigits_eq]
  simp only [show ¬ n < 10 by omega, if_false]
  rw [natDigits_eq1 (n / 10) (by omega)]
  rfl

theorem natDigits_eq3 (n : Nat) (h1 : 100 ≤ n) (h2 : n < 1000) :
    natDigits n = [n / 100, n / 10 % 10, n % 10] := by
  rw [natDigits_eq]
  simp only [show ¬ n < 10 by omega, if_false]
  rw [natDigits_eq2 (n / 10) (by omega) (by omega)]
  simp only [List.cons_append, List.nil_append]
  rw [Nat.div_div_eq_div_mul]

theorem pad3_eq3 (n : Nat) (h : n < 1000) :
    pad3 n = [48 + n / 100, 48 + n / 10 % 10, 48 + n % 10] := by
  unfold pad3
  by_cases h1 : n < 10
  · rw [natDigits_eq1 n h1]
    simp only [List.map_cons, List.map_nil, List.length_cons, List.length_nil]
    simp [List.replicate]
    omega
  · by_cases h2 : n < 100
    · rw [natDigits_eq2 n (by omega) h2]
      simp only [List.map_cons, List.map_nil, List.length_cons, List.length_nil]
      simp [List.replicate]
      omega
    · rw [natDigits_eq3 n (by omega) h]
      simp [List.replicate]

theorem pad3_length_eq3 (n : Nat) (h : n < 1000) : (pad3 n).length = 3 := by
  rw [pad3_eq3 n h]
  rfl

theorem natDigits_length_ge :
    ∀ (k n : Nat), 10 ^ k ≤ n → k + 1 ≤ (natDigits n).length := by
  intro k
  induction k with
  | zero =>
    intro n _
    rw [natDigits_eq]
    by_cases h : n < 10 <;> simp [h]
  | succ k ih =>
    intro n hn
    have hpow : (10 : Nat) ≤ 10 ^ (k + 1) := by
      calc (10 : Nat) = 10 ^ 1 := by ring
      _ ≤ 10 ^ (k + 1) := Nat.pow_le_pow_right (by omega) (by omega)
    have h10 : 10 ≤ n := le_trans hpow hn
    rw [natDigits_eq]
    simp only [show ¬ n < 10 by omega, if_false, List.length_append,
      List.length_cons, List.length_nil]
    have : 10 ^ k ≤ n / 10 := by
      rw [Nat.le_div_iff_mul_le (by omega)]
      calc 10 ^ k * 10 = 10 ^ (k + 1) := by ring
      _ ≤ n := hn
    have := ih (n / 10) this
    omega

theorem pad3_length_ge4 (n : Nat) (h : 1000 ≤ n) : 4 ≤ (pad3 n).length := by
  unfold pad3
  have h4 : 4 ≤ (natDigits n).length := natDigits_length_ge 3 n (by norm_num; omega)
  simp only [List.length_append, List.length_replicate, List.length_map]
  omega

theorem pad3_mem_lt (n x : Nat) (hx : x ∈ pad3 n) : x < 58 := by
  unfold pad3 at hx
  simp only [List.mem_append, List.mem_replicate, List.mem_map] at hx
  rcases hx with ⟨_, h⟩ | ⟨d, hd, h⟩
  · omega
  · have := natDigits_all_lt10 n d hd
    omega

/-! ### Ordering lemmas for fragment names -/

theorem ltName_append_left : ∀ (p a b : Name), ltName (p ++ a) (p ++ b) = ltName a b := by
  intro p a b
  induction p with
  | nil => rfl
  | cons x s ih => simp [ltName, ih]

theorem pad3_mono (i j : Nat) (hij : i < j) (hj : j < 1000) :
    ltName (pad3 i) (pad3 j) = true := by
  rw [pad3_eq3 i (by omega), pad3_eq3 j hj]
  simp [ltName]
  omega

theorem fragName_mono (base : Name) (i j : Nat) (hij : i < j) (hj : j < 1000) :
    ltName (fragName base i) (fragName base j) = true := by
  unfold fragName
  rw [ltName_append_left]
  exact pad3_mono i j hij hj

theorem fragName_le (base : Name) (i j : Nat) (hij : i < j) (hj : j < 1000) :
    nameLeR (fragName base i) (fragName base j) := by
  unfold nameLeR leName
  simp [fragName_mono base i j hij hj]

theorem fragName_ne (base : Name) (i j : Nat) (hij : i < j) (hj : j < 1000) :
    fragName base i ≠ fragName base j := by
  intro h
  have := fragName_mono base i j hij hj
  rw [h, ltName_irrefl] at this
  exact absurd this (by simp)

/-! ### Fragment selection lemmas -/

theorem isFragmentName_fragName_true (base : Name) (i : Nat) (h : i < 1000) :
    isFragmentName base (fragName base i) = true := by
  unfold isFragmentName
  apply Bool.and_eq_true_iff.mpr
  constructor
  · unfold fragName
    rw [List.append_assoc]
    exact startsWithL_append base (codes ".part" ++ pad3 i)
  · apply List.any_eq_true.mpr
    refine ⟨i, List.mem_range.mpr h, ?_⟩
    unfold fragName partSuffix
    rw [List.append_assoc]
    exact endsWithL_append base (codes ".part" ++ pad3 i)

theorem isFragmentName_fragName_false (base : Name) (i : Nat) (h : 1000 ≤ i) :
    isFragmentName base (fragName base i) = false := by
  have hlen : 3 < (pad3 i).reverse.length := by
    rw [List.length_reverse]
    have := pad3_length_ge4 i h
    omega
  unfold isFragmentName
  apply Bool.and_eq_false_iff.mpr
  right
  apply List.any_eq_false.mpr
  intro j hj
  replace hj := List.mem_range.mp hj
  simp only [Bool.not_eq_true]
  unfold endsWithL partSuffix fragName
  apply startsWithL_eq_false_of_ne 3 _ _ ((pad3 i).reverse.get ⟨3, hlen⟩) 116
  · rw [List.append_assoc, List.reverse_append, List.reverse_append, List.append_assoc]
    rw [List.getElem?_append_left hlen]
    rw [List.getElem?_eq_getElem hlen]
    rfl
  · rw [List.reverse_append]
    rw [List.getElem?_append_right (by rw [List.length_reverse, pad3_length_eq3 j hj])]
    rw [List.length_reverse, pad3_length_eq3 j hj]
    rfl
  · have hmem : (pad3 i).reverse.get ⟨3, hlen⟩ ∈ pad3 i := by
      rw [← List.mem_reverse]
      exact List.get_mem _ _ hlen
    have := pad3_mem_lt i _ hmem
    omega

/-! ### Fragment bookkeeping lemmas -/

theorem fragList_map_fst (base : Name) :
    ∀ (cs : List (List Byte)) (k : Nat),
    (fragList base k cs).map Prod.fst = (List.range' (k + 1) cs.length).map (fragName base) := by
  intro cs
  induction cs with
  | nil => intro k; rfl
  | cons c cs ih =>
    intro k
    simp only [fragList, List.map_cons, List.length_cons, List.range'_succ]
    rw [ih (k + 1)]

theorem lookupD_cons_eq (name : Name) (c : List Byte) (frags : List (Name × List Byte)) :
    lookupD ((name, c) :: frags) name = c := by
  unfold lookupD
  rw [List.find?_cons_of_pos _ (by simp)]
  rfl

theorem lookupD_cons_ne (p : Name × List Byte) (frags : List (Name × List Byte))
    (name : Name) (h : p.1 ≠ name) : lookupD (p :: frags) name = lookupD frags name := by
  unfold lookupD
  rw [List.find?_cons_of_neg _ (by simpa using h)]

theorem lookupD_fragList (base : Name) :
    ∀ (cs : List (List Byte)) (k j : Nat), k < j → j ≤ k + cs.length → j < 1000 →
    lookupD (fragList base k cs) (fragName base j) = cs.getD (j - k - 1) [] := by
  intro cs
  induction cs with
  | nil =>
    intro k j h1 h2 _
    simp at h2
    omega
  | cons c cs ih =>
    intro k j h1 h2 h3
    by_cases hj : j = k + 1
    · subst hj
      rw [show fragList base k (c :: cs) = (fragName base (k + 1), c) :: fragList base (k + 1) cs
        from rfl]
      rw [lookupD_cons_eq]
      simp
    · have hne : fragName base (k + 1) ≠ fragName base j :=
        fragName_ne base (k + 1) j (by omega) h3
      rw [show fragList base k (c :: cs) = (fragName base (k + 1), c) :: fragList base (k + 1) cs
        from rfl]
      rw [lookupD_cons_ne _ _ _ hne]
      rw [ih (k + 1) j (by omega) (by simp only [List.length_cons] at h2; omega) h3]
      rw [show j - k - 1 = (j - (k + 1) - 1) + 1 by omega]
      rw [List.getD_cons_succ]

/-- The filter of `merge_files` keeps, of the fragments written by
`split_file`, exactly those numbered 1 .. min n 999. -/
theorem filter_fragName_range (base : Name) (n : Nat) :
    ((List.range' 1 n).map (fragName base)).filter (fun f => isFragmentName base f) =
      (List.range' 1 (min n 999)).map (fragName base) := by
  rw [List.filter_map]
  by_cases h : n ≤ 999
  · rw [min_eq_left h]
    congr 1
    apply List.filter_eq_self.mpr
    intro a ha
    replace ha := List.mem_range'.mp ha
    simp only [Function.comp_apply]
    apply isFragmentName_fragName_true
    omega
  · rw [min_eq_right (by omega)]
    have hsplit : List.range' 1 n = List.range' 1 999 ++ List.range' 1000 (n - 999) := by
      have := List.range'_append 1 999 (n - 999) 1
      simp only [Nat.mul_one] at this
      rw [show (1 : Nat) + 999 = 1000 from rfl] at this
      rw [show n - 999 + 999 = n by omega] at this
      exact this.symm
    rw [hsplit, List.filter_append]
    have h1 : (List.range' 1 999).filter (fun i => isFragmentName base (fragName base i)) =
        List.range' 1 999 := by
      apply List.filter_eq_self.mpr
      intro a ha
      replace ha := List.mem_range'.mp ha
      apply isFragmentName_fragName_true
      omega
    have h2 : (List.range' 1000 (n - 999)).filter
        (fun i => isFragmentName base (fragName base i)) = [] := by
      apply List.filter_eq_nil_iff.mpr
      intro a ha
      replace ha := List.mem_range'.mp ha
      simp only [Bool.not_eq_true]
      apply isFragmentName_fragName_false
      omega
    simp only [Function.comp_def] at h1 h2 ⊢
    rw [h1, h2, List.append_nil]

/-- The generated fragment names, in index order, are already sorted for
the string order used by `merge_files`. -/
theorem sorted_fragName_range (base : Name) (m : Nat) (hm : m ≤ 999) :
    List.Sorted nameLeR ((List.range' 1 m).map (fragName base)) := by
  rw [List.Sorted, List.pairwise_map]
  apply List.Pairwise.imp_of_mem (R := (· < ·))
  · intro a b ha hb hab
    replace hb := List.mem_range'.mp hb
    exact fragName_le base a b hab (by omega)
  · exact List.pairwise_lt_range' 1 m

/-- Reading back the selected fragments in sorted order yields the first
`m` chunks. -/
theorem map_lookup_range (base : Name) (cs : List (List Byte)) (m : Nat)
    (hm : m ≤ cs.length) (hm2 : m ≤ 999) :
    (List.range' 1 m).map (fun j => lookupD (fragList base 0 cs) (fragName base j)) =
      cs.take m := by
  induction m with
  | zero => simp
  | succ m ih =>
    rw [List.range'_concat, List.map_append, ih (by omega) (by omega)]
    simp only [List.map_cons, List.map_nil, Nat.one_mul]
    rw [lookupD_fragList base cs 0 (1 + m) (by omega) (by omega) (by omega)]
    have hlt : m < cs.length := by omega
    rw [List.take_succ]
    congr 1
    rw [show 1 + m - 0 - 1 = m by omega]
    rw [List.getD_eq_getElem?_getD, List.getElem?_eq_getElem hlt]
    rfl

/-- Concatenating the first `m` chunks of size `sz + 1` gives the first
`m * (sz + 1)` bytes. -/
theorem flatten_take_chunks (sz : Nat) :
    ∀ (m : Nat) (data : List Byte),
    ((chunksAux sz data).take m).flatten = data.take (m * (sz + 1)) := by
  intro m
  induction m with
  | zero => intro data; simp
  | succ m ih =>
    intro data
    cases data with
    | nil => simp [chunksAux_nil]
    | cons b rest =>
      rw [chunksAux_cons, List.take_succ_cons, List.flatten_cons, ih (rest.drop sz)]
      rw [show (m + 1) * (sz + 1) = (sz + m * (sz + 1)) + 1 by ring, List.take_succ_cons]
      rw [List.take_add]
      rfl

theorem length_le_chunksAux (sz : Nat) :
    ∀ (fuel : Nat) (data : List Byte), data.length ≤ fuel →
    data.length ≤ (chunksAux sz data).length * (sz + 1) := by
  intro fuel
  induction fuel with
  | zero =>
    intro data h
    simp only [Nat.le_zero] at h
    rw [List.length_eq_zero.mp h, chunksAux_nil]
    simp
  | succ fuel ih =>
    intro data h
    cases data with
    | nil => simp [chunksAux_nil]
    | cons b rest =>
      rw [chunksAux_cons]
      simp only [List.length_cons] at h ⊢
      have ihd := ih (rest.drop sz) (by simp; omega)
      simp only [List.length_drop] at ihd
      have hexp : ((chunksAux sz (rest.drop sz)).length + 1) * (sz + 1) =
          (chunksAux sz (rest.drop sz)).length * (sz + 1) + sz + 1 := by ring
      omega

/-- The chunks of `data` cover `data`. -/
theorem length_le_chunks (sz : Nat) (data : List Byte) :
    data.length ≤ (chunksAux sz data).length * (sz + 1) :=
  length_le_chunksAux sz data.length data le_rfl

/-- There are at most `k` chunks when `data` has at most `k * (sz + 1)`
bytes. -/
theorem chunks_length_le (sz : Nat) :
    ∀ (k : Nat) (data : List Byte), data.length ≤ k * (sz + 1) →
    (chunksAux sz data).length ≤ k := by
  intro k
  induction k with
  | zero =>
    intro data h
    simp only [Nat.zero_mul, Nat.le_zero] at h
    rw [List.length_eq_zero.mp h, chunksAux_nil]
    simp
  | succ k ih =>
    intro data h
    cases data with
    | nil => simp [chunksAux_nil]
    | cons b rest =>
      rw [chunksAux_cons]
      simp only [List.length_cons]
      have hexp : (k + 1) * (sz + 1) = k * (sz + 1) + sz + 1 := by ring
      have : (rest.drop sz).length ≤ k * (sz + 1) := by
        simp only [List.length_drop]
        simp only [List.length_cons] at h
        omega
      have := ih (rest.drop sz) this
      omega

/-- Running `split_file` with all fragment writes succeeding returns the written
fragments. -/
theorem split_file_allOk (data : List Byte) (base : Name) (size : Int) :
    split_file (fun _ => true) (some data) base size =
      .ok (fragList base 0 (readChunks size data)) := by
  unfold split_file
  simp

/-- With a positive size the read loop produces the block chunking. -/
theorem readChunks_pos (size : Int) (hpos : 0 < size) (data : List Byte) :
    readChunks size data = chunksAux (size.toNat - 1) data := by
  unfold readChunks
  rw [if_neg (by omega), if_neg (by omega)]

/-- Master theorem: merging right after a successful split of nonempty
`data` returns exactly the first `999 * size` bytes of `data` — all of it
when it fits in 999 fragments, silently truncated otherwise. -/
theorem merge_split_master (base : Name) (data : List Byte) (size : Int)
    (hpos : 0 < size) (hne : data ≠ []) :
    merge_files (splitDir (fragList base 0 (readChunks size data))) base =
      .ok (data.take (999 * size.toNat)) := by
  have hsz : size.toNat - 1 + 1 = size.toNat := by omega
  rw [readChunks_pos size hpos data]
  set sz := size.toNat - 1 with hszdef
  set cs := chunksAux sz data with hcs
  set n := cs.length with hn
  have hn1 : 1 ≤ n := by
    cases data with
    | nil => exact absurd rfl hne
    | cons b rest =>
      rw [hn, hcs, chunksAux_cons]
      simp
  have hsel : selectFragments (splitDir (fragList base 0 cs)) base =
      (List.range' 1 (min n 999)).map (fragName base) := by
    unfold selectFragments splitDir pySorted
    simp only
    rw [fragList_map_fst base cs 0, filter_fragName_range base n]
    exact (sorted_fragName_range base (min n 999) (by omega)).insertionSort_eq
  unfold merge_files
  rw [hsel]
  have hne2 : (List.range' 1 (min n 999)).map (fragName base) ≠ [] := by
    simp only [ne_eq, List.map_eq_nil_iff, List.range'_eq_nil]
    omega
  rw [if_neg (by rw [List.isEmpty_iff]; exact hne2)]
  have hcontent : (splitDir (fragList base 0 cs)).content = lookupD (fragList base 0 cs) :=
    rfl
  rw [hcontent, List.map_map]
  rw [show ((lookupD (fragList base 0 cs)) ∘ (fragName base)) =
    (fun j => lookupD (fragList base 0 cs) (fragName base j)) from rfl]
  rw [map_lookup_range base cs (min n 999) (by omega) (by omega)]
  rw [flatten_take_chunks sz (min n 999) data, hsz]
  congr 1
  by_cases hcase : n ≤ 999
  · rw [min_eq_left hcase]
    have hcov : data.length ≤ n * (sz + 1) := length_le_chunks sz data
    rw [hsz] at hcov
    have h999 : data.length ≤ 999 * size.toNat :=
      hcov.trans (Nat.mul_le_mul_right _ hcase)
    rw [List.take_of_length_le hcov, List.take_of_length_le h999]
  · rw [min_eq_right (by omega)]

/-- There are more than `k` chunks when `data` has more than
`k * (sz + 1)` bytes. -/
theorem chunks_length_ge (sz : Nat) :
    ∀ (k : Nat) (data : List Byte), k * (sz + 1) < data.length →
    k < (chunksAux sz data).length := by
  intro k
  induction k with
  | zero =>
    intro data h
    cases data with
    | nil => simp at h
    | cons b rest =>
      rw [chunksAux_cons]
      simp
  | succ k ih =>
    intro data h
    cases data with
    | nil => simp at h
    | cons b rest =>
      rw [chunksAux_cons]
      simp only [List.length_cons]
      have hexp : (k + 1) * (sz + 1) = k * (sz + 1) + sz + 1 := by ring
      have hlt : k * (sz + 1) < (rest.drop sz).length := by
        simp only [List.length_drop]
        simp only [List.length_cons] at h
        omega
      have := ih (rest.drop sz) hlt
      omega

/-! ### Matched-source-folder loop invariants -/

theorem msf_none (fp : Name) :
    ∀ (l : List Name) (acc : Option Name), (∀ s ∈ l, startsWithL fp s = false) →
    List.foldl (msfStep fp) acc l = acc := by
  intro l
  induction l with
  | nil => intro acc _; rfl
  | cons s l ih =>
    intro acc h
    rw [List.foldl_cons]
    have hs := h s (List.mem_cons_self s l)
    have hstep : msfStep fp acc s = acc := by
      cases acc <;> simp [msfStep, hs]
    rw [hstep]
    exact ih acc (fun x hx => h x (List.mem_cons_of_mem _ hx))

theorem msf_loop (fp : Name) :
    ∀ (l : List Name) (acc : Option Name),
    (∀ m, acc = some m → startsWithL fp m = true) →
    (∀ m, List.foldl (msfStep fp) acc l = some m →
       startsWithL fp m = true ∧ (acc = some m ∨ m ∈ l)) ∧
    (∀ s2, s2 ∈ l → startsWithL fp s2 = true →
       ∃ m, List.foldl (msfStep fp) acc l = some m ∧ s2.length ≤ m.length) ∧
    (∀ m0, acc = some m0 →
       ∃ m, List.foldl (msfStep fp) acc l = some m ∧ m0.length ≤ m.length) := by
  intro l
  induction l with
  | nil =>
    intro acc hacc
    refine ⟨fun m hm => ⟨hacc m hm, Or.inl hm⟩, fun s2 hs2 => absurd hs2 (by simp), ?_⟩
    intro m0 h0
    exact ⟨m0, h0, le_rfl⟩
  | cons s l ih =>
    intro acc hacc
    have hkeep : ∀ m, msfStep fp acc s = some m →
        startsWithL fp m = true ∧ (acc = some m ∨ m = s) := by
      intro m hm
      by_cases hsw : startsWithL fp s = true
      · cases ha : acc with
        | none =>
          subst ha
          simp only [msfStep, if_pos hsw, Option.some.injEq] at hm
          exact ⟨hm ▸ hsw, Or.inr hm.symm⟩
        | some m1 =>
          subst ha
          simp only [msfStep, if_pos hsw] at hm
          by_cases hl : s.length > m1.length
          · rw [if_pos hl] at hm
            simp only [Option.some.injEq] at hm
            exact ⟨hm ▸ hsw, Or.inr hm.symm⟩
          · rw [if_neg hl] at hm
            simp only [Option.some.injEq] at hm
            exact ⟨hm ▸ hacc m1 rfl, Or.inl (by rw [hm])⟩
      · cases ha : acc with
        | none =>
          subst ha
          simp only [msfStep, if_neg hsw] at hm
          exact Option.noConfusion hm
        | some m1 =>
          subst ha
          simp only [msfStep, if_neg hsw, Option.some.injEq] at hm
          exact ⟨hm ▸ hacc m1 rfl, Or.inl (by rw [hm])⟩
    obtain ⟨ih1, ih2, ih3⟩ := ih (msfStep fp acc s) (fun m hm => (hkeep m hm).1)
    refine ⟨?_, ?_, ?_⟩
    · intro m hm
      rw [List.foldl_cons] at hm
      obtain ⟨h1, h2⟩ := ih1 m hm
      refine ⟨h1, ?_⟩
      rcases h2 with h2 | h2
      · rcases (hkeep m h2).2 with h3 | h3
        · exact Or.inl h3
        · exact Or.inr (by simp [h3])
      · exact Or.inr (by simp [h2])
    · intro s2 hs2 hsw2
      rw [List.foldl_cons]
      rcases List.mem_cons.mp hs2 with h | h
      · subst h
        have hstep_ge : ∃ m1, msfStep fp acc s2 = some m1 ∧ s2.length ≤ m1.length := by
          cases ha : acc with
          | none =>
            simp only [msfStep, if_pos hsw2]
            exact ⟨s2, rfl, le_rfl⟩
          | some m1 =>
            simp only [msfStep, if_pos hsw2]
            by_cases hl : s2.length > m1.length
            · rw [if_pos hl]
              exact ⟨s2, rfl, le_rfl⟩
            · rw [if_neg hl]
              exact ⟨m1, rfl, by omega⟩
        obtain ⟨m1, hm1, hge⟩ := hstep_ge
        obtain ⟨m, hm, hge2⟩ := ih3 m1 hm1
        exact ⟨m, hm, le_trans hge hge2⟩
      · exact ih2 s2 h hsw2
    · intro m0 h0
      rw [List.foldl_cons]
      have hstep_ge : ∃ m1, msfStep fp acc s = some m1 ∧ m0.length ≤ m1.length := by
        rw [h0]
        by_cases hsw2 : startsWithL fp s = true
        · simp only [msfStep, if_pos hsw2]
          by_cases hl : s.length > m0.length
          · rw [if_pos hl]
            exact ⟨s, rfl, by omega⟩
          · rw [if_neg hl]
            exact ⟨m0, rfl, le_rfl⟩
        · simp only [msfStep, if_neg hsw2]
          exact ⟨m0, rfl, le_rfl⟩
      obtain ⟨m1, hm1, hge⟩ := hstep_ge
      obtain ⟨m, hm, hge2⟩ := ih3 m1 hm1
      exact ⟨m, hm, le_trans hge hge2⟩

/-- In a duplicate-free list, exactly one element equals a given member. -/
theorem countP_eq_one_of_nodup_mem (l : List Name) (a : Name) (hnd : l.Nodup)
    (ha : a ∈ l) : l.countP (fun m => decide (m = a)) = 1 := by
  induction l with
  | nil => simp at ha
  | cons b l ih =>
    rw [List.countP_cons]
    have hbl : b ∉ l := (List.nodup_cons.mp hnd).1
    have hndl : l.Nodup := (List.nodup_cons.mp hnd).2
    rcases List.mem_cons.mp ha with h | h
    · subst h
      have hzero : l.countP (fun m => decide (m = a)) = 0 := by
        apply List.countP_eq_zero.mpr
        intro x hx
        simp only [decide_eq_true_eq]
        intro hxa
        exact hbl (hxa ▸ hx)
      simp [hzero]
    · have hba : b ≠ a := by
        intro hba
        exact hbl (hba ▸ h)
      rw [ih hndl h]
      simp [hba]

/-- Reduction of `split_file` on an existing file. -/
theorem split_file_some (writeOk : Name → Bool) (data : List Byte) (base : Name)
    (size : Int) :
    split_file writeOk (some data) base size =
    if ((((fragList base 0 (readChunks size data)).map
        (fun p => (p.1, writeOk p.1))).filter (fun r => !r.2)).map Prod.fst).isEmpty then
      .ok (fragList base 0 (readChunks size data))
    else
      .error (.fragmentWriteFailed ((((fragList base 0 (readChunks size data)).map
        (fun p => (p.1, writeOk p.1))).filter (fun r => !r.2)).map Prod.fst)) := rfl

/-- Reduction of `restore_from_archive` on a successful nonempty listing:
every member is prepared and dispatched, each unit reports its own
outcome, and the call completes with the failure count as a warning. -/
theorem restore_ok_members (pg : Bool) (members : List Name)
    (runExtract : Name → Except Name Unit) (hne : members ≠ []) :
    restore_from_archive true pg (.ok members) runExtract =
      ⟨members, members, members.map (extract_single_member runExtract),
        .ok (((members.map (extract_single_member runExtract)).filter
          (fun r => !r.2)).length)⟩ := by
  unfold restore_from_archive
  simp [List.isEmpty_iff, hne]

/-! ### Claim theorems -/

/-- C1, counterexample: the claim fails already for the empty file with
fragment size 1 — split succeeds with zero fragments, and the subsequent
merge raises `NoFragmentsFound` instead of producing an output file whose
bytes equal the original (empty) file. -/
theorem c1_empty_file_counterexample :
    split_file (fun _ => true) (some []) (codes "a") 1 = .ok [] ∧
    merge_files (splitDir (fragList (codes "a") 0 (readChunks 1 []))) (codes "a") =
      .error .noFragmentsFound := by
  constructor
  · decide
  · decide

/-- C1, amended: for every nonempty file and positive fragment size such
that the file fits in 999 fragments, `split_file` succeeds and the
subsequent `merge_files` reproduces the original bytes exactly — both when
the size divides the length and when the last fragment is shorter. -/
theorem c1_split_merge_roundtrip (base : Name) (data : List Byte) (size : Int)
    (hpos : 0 < size) (hne : data ≠ []) (hlen : data.length ≤ 999 * size.toNat) :
    split_file (fun _ => true) (some data) base size =
      .ok (fragList base 0 (readChunks size data)) ∧
    merge_files (splitDir (fragList base 0 (readChunks size data))) base = .ok data := by
  refine ⟨split_file_allOk data base size, ?_⟩
  rw [merge_split_master base data size hpos hne]
  rw [List.take_of_length_le hlen]

/-- Witness for C1: size 2 with a 3-byte file (non-dividing, last fragment
shorter) and with a 4-byte file (dividing). -/
theorem c1_split_merge_roundtrip_witness :
    ((0 : Int) < 2 ∧ ([1, 2, 3] : List Byte) ≠ [] ∧
      ([1, 2, 3] : List Byte).length ≤ 999 * (2 : Int).toNat) ∧
    merge_files (splitDir (fragList (codes "a") 0 (readChunks 2 [1, 2, 3]))) (codes "a") =
      .ok [1, 2, 3] ∧
    merge_files (splitDir (fragList (codes "b") 0 (readChunks 2 [5, 6, 7, 8]))) (codes "b") =
      .ok [5, 6, 7, 8] :=
  ⟨⟨by decide, by decide, by decide⟩,
    (c1_split_merge_roundtrip (codes "a") [1, 2, 3] 2 (by decide) (by decide) (by decide)).2,
    (c1_split_merge_roundtrip (codes "b") [5, 6, 7, 8] 2 (by decide) (by decide) (by decide)).2⟩

/-- C3: merging fragments `f.part001` … `f.part012` concatenates their
contents in ascending numeric index order, whatever order the directory
listing returns the names in. -/
theorem c3_merge_numeric_order (content : Name → List Byte) (listing : List Name)
    (hperm : listing.Perm ((List.range' 1 12).map (fragName (codes "f")))) :
    merge_files ⟨listing, content⟩ (codes "f") =
      .ok (((List.range' 1 12).map (fragName (codes "f"))).map content).flatten := by
  have hfilter_canon :
      ((List.range' 1 12).map (fragName (codes "f"))).filter
        (fun f2 => isFragmentName (codes "f") f2) =
      (List.range' 1 12).map (fragName (codes "f")) := by
    apply List.filter_eq_self.mpr
    intro a ha
    obtain ⟨i, hi, rfl⟩ := List.mem_map.mp ha
    replace hi := List.mem_range'.mp hi
    apply isFragmentName_fragName_true
    omega
  have hperm2 : (listing.filter (fun f2 => isFragmentName (codes "f") f2)).Perm
      ((List.range' 1 12).map (fragName (codes "f"))) := by
    have := hperm.filter (fun f2 => isFragmentName (codes "f") f2)
    rwa [hfilter_canon] at this
  have hsel : selectFragments ⟨listing, content⟩ (codes "f") =
      (List.range' 1 12).map (fragName (codes "f")) := by
    apply List.eq_of_perm_of_sorted (r := nameLeR)
    · exact (List.perm_insertionSort nameLeR _).trans hperm2
    · exact List.sorted_insertionSort nameLeR _
    · exact sorted_fragName_range (codes "f") 12 (by omega)
  unfold merge_files
  rw [hsel]
  rw [if_neg (by simp [List.isEmpty_iff, List.range'])]

/-- Witness for C3: a lexicographically reversed listing of the 12
fragment names, with each fragment's content a copy of its own name. -/
theorem c3_merge_numeric_order_witness :
    (((List.range' 1 12).map (fragName (codes "f"))).reverse).Perm
      ((List.range' 1 12).map (fragName (codes "f"))) ∧
    merge_files ⟨((List.range' 1 12).map (fragName (codes "f"))).reverse, fun n => n⟩
        (codes "f") =
      .ok (((List.range' 1 12).map (fragName (codes "f"))).map (fun n => n)).flatten :=
  ⟨List.reverse_perm _,
    c3_merge_numeric_order (fun n => n) _ (List.reverse_perm _)⟩

/-- C6: with an existing one-byte file, `split_file` raises nothing for a
non-positive fragment size — size 0 yields zero fragments and size -1 one
fragment holding the whole file (Python `read` semantics), the fragments
directory being returned normally in both cases, against the spec's
`InvalidSize` contract. -/
theorem c6_no_invalid_size_check :
    split_file (fun _ => true) (some [120]) (codes "a") 0 = .ok [] ∧
    split_file (fun _ => true) (some [120]) (codes "a") (-1) =
      .ok [(fragName (codes "a") 1, [120])] := by
  constructor
  · decide
  · decide

/-- C8: splitting an existing zero-length file with any positive fragment
size raises nothing, produces zero fragments, and returns the fragments
directory. -/
theorem c8_empty_file_zero_fragments (base : Name) (size : Int) (hpos : 0 < size) :
    split_file (fun _ => true) (some []) base size = .ok [] := by
  rw [split_file_allOk, readChunks_pos size hpos]
  rfl

/-- Witness for C8 at size 1. -/
theorem c8_empty_file_zero_fragments_witness :
    (0 : Int) < 1 ∧ split_file (fun _ => true) (some []) (codes "a") 1 = .ok [] :=
  ⟨by decide, c8_empty_file_zero_fragments (codes "a") 1 (by decide)⟩

/-- C9: the merge filter accepts every name made of the base prefix, any
middle characters, and a `.part<NNN>` suffix with `NNN` from 000 to 999 —
including `.part000` — and such a listed name is among the fragments
merge concatenates. -/
theorem c9_loose_fragment_filter (base mid : Name) (i : Nat) (hi : i < 1000) :
    isFragmentName base (base ++ mid ++ codes ".part" ++ pad3 i) = true ∧
    (∀ (d : Dir), (base ++ mid ++ codes ".part" ++ pad3 i) ∈ d.listing →
      (base ++ mid ++ codes ".part" ++ pad3 i) ∈ selectFragments d base) := by
  have hfrag : isFragmentName base (base ++ mid ++ codes ".part" ++ pad3 i) = true := by
    unfold isFragmentName
    apply Bool.and_eq_true_iff.mpr
    constructor
    · rw [List.append_assoc, List.append_assoc]
      exact startsWithL_append base _
    · apply List.any_eq_true.mpr
      refine ⟨i, List.mem_range.mpr hi, ?_⟩
      unfold partSuffix
      rw [List.append_assoc]
      exact endsWithL_append (base ++ mid) _
  refine ⟨hfrag, ?_⟩
  intro d hd
  unfold selectFragments pySorted
  rw [(List.perm_insertionSort nameLeR _).mem_iff]
  exact List.mem_filter.mpr ⟨hd, hfrag⟩

/-- Witness for C9: `a.zip.old.part001` passes the filter for base
`a.zip`, `a.zip.part000` is accepted, and the `.old` fragment is selected
from a concrete directory. -/
theorem c9_loose_fragment_filter_witness :
    (1 < 1000 ∧
      codes "a.zip" ++ codes ".old" ++ codes ".part" ++ pad3 1 = codes "a.zip.old.part001" ∧
      codes "a.zip" ++ [] ++ codes ".part" ++ pad3 0 = codes "a.zip.part000") ∧
    isFragmentName (codes "a.zip") (codes "a.zip" ++ codes ".old" ++ codes ".part" ++ pad3 1) =
      true ∧
    isFragmentName (codes "a.zip") (codes "a.zip" ++ [] ++ codes ".part" ++ pad3 0) = true ∧
    (codes "a.zip" ++ codes ".old" ++ codes ".part" ++ pad3 1) ∈
      selectFragments
        ⟨[codes "a.zip.part002", codes "a.zip.old.part001"], fun _ => []⟩ (codes "a.zip") :=
  ⟨⟨by decide, by decide, by decide⟩,
    (c9_loose_fragment_filter (codes "a.zip") (codes ".old") 1 (by decide)).1,
    (c9_loose_fragment_filter (codes "a.zip") [] 0 (by decide)).1,
    (c9_loose_fragment_filter (codes "a.zip") (codes ".old") 1 (by decide)).2
      ⟨[codes "a.zip.part002", codes "a.zip.old.part001"], fun _ => []⟩ (by decide)⟩

/-- C10: a file needing more than 999 fragments splits without error;
fragment 1000 is written under the four-digit name `<base>.part1000`, which
the merge filter rejects, so the merged output is exactly the first
`999 * size` bytes — a proper prefix of the original. -/
theorem c10_fragment_overflow_truncation (base : Name) (data : List Byte) (size : Int)
    (hpos : 0 < size) (hlen : 999 * size.toNat < data.length) :
    fragName base 1000 = base ++ codes ".part1000" ∧
    isFragmentName base (fragName base 1000) = false ∧
    fragName base 1000 ∈ (fragList base 0 (readChunks size data)).map Prod.fst ∧
    split_file (fun _ => true) (some data) base size =
      .ok (fragList base 0 (readChunks size data)) ∧
    merge_files (splitDir (fragList base 0 (readChunks size data))) base =
      .ok (data.take (999 * size.toNat)) ∧
    data.take (999 * size.toNat) ≠ data := by
  have hne : data ≠ [] := by
    intro h
    rw [h] at hlen
    simp at hlen
  have hsz : size.toNat - 1 + 1 = size.toNat := by omega
  refine ⟨?_, isFragmentName_fragName_false base 1000 le_rfl, ?_,
    split_file_allOk data base size, merge_split_master base data size hpos hne, ?_⟩
  · unfold fragName
    rw [List.append_assoc,
      show codes ".part" ++ pad3 1000 = codes ".part1000" from by decide]
  · rw [readChunks_pos size hpos, fragList_map_fst base _ 0]
    apply List.mem_map.mpr
    refine ⟨1000, ?_, rfl⟩
    apply List.mem_range'.mpr
    refine ⟨999, ?_, by omega⟩
    apply chunks_length_ge
    rw [hsz]
    exact hlen
  · intro h
    have hl := congrArg List.length h
    rw [List.length_take] at hl
    omega

/-- Witness for C10: a 1000-byte file split with size 1 — the merge output
is the 999-byte proper prefix. -/
theorem c10_fragment_overflow_truncation_witness :
    ((0 : Int) < 1 ∧ 999 * (1 : Int).toNat < (List.replicate 1000 9).length) ∧
    merge_files (splitDir (fragList (codes "a") 0
        (readChunks 1 (List.replicate 1000 9)))) (codes "a") =
      .ok ((List.replicate 1000 9).take (999 * (1 : Int).toNat)) ∧
    (List.replicate 1000 9).take (999 * (1 : Int).toNat) ≠ List.replicate 1000 9 :=
  ⟨⟨by decide, by rw [List.length_replicate]; decide⟩,
    (c10_fragment_overflow_truncation (codes "a") (List.replicate 1000 9) 1
      (by decide) (by rw [List.length_replicate]; decide)).2.2.2.2.1,
    (c10_fragment_overflow_truncation (codes "a") (List.replicate 1000 9) 1
      (by decide) (by rw [List.length_replicate]; decide)).2.2.2.2.2⟩

/-- C2: in an extraction batch where exactly one unit fails, the failure
is caught inside that unit — the results cover every member, every sibling
completes with `(name, true)`, the failure is reported as `(name, false)`
under its own member identifier, and the batch reports exactly one
failure. -/
theorem c2_unit_failure_isolated (members : List Name)
    (runExtract : Name → Except Name Unit) (pg : Bool) (m0 e : Name)
    (hnd : members.Nodup) (hm0 : m0 ∈ members) (hfail : runExtract m0 = .error e)
    (hok : ∀ m, m ∈ members → m ≠ m0 → runExtract m = .ok ()) :
    (restore_from_archive true pg (.ok members) runExtract).results =
      members.map (fun m => (m, decide (m ≠ m0))) ∧
    (m0, false) ∈ (restore_from_archive true pg (.ok members) runExtract).results ∧
    (∀ m, m ∈ members → m ≠ m0 →
      (m, true) ∈ (restore_from_archive true pg (.ok members) runExtract).results) ∧
    (restore_from_archive true pg (.ok members) runExtract).outcome = .ok 1 := by
  have hne : members ≠ [] := List.ne_nil_of_mem hm0
  rw [restore_ok_members pg members runExtract hne]
  have hmap : members.map (extract_single_member runExtract) =
      members.map (fun m => (m, decide (m ≠ m0))) := by
    apply List.map_congr_left
    intro m hm
    by_cases h : m = m0
    · subst h
      unfold extract_single_member
      rw [hfail]
      simp
    · unfold extract_single_member
      rw [hok m hm h]
      simp [h]
  have hcount : ((members.map (fun m => (m, decide (m ≠ m0)))).filter
      (fun r => !r.2)).length = 1 := by
    rw [List.filter_map, List.length_map]
    have hpred : ((fun r : Name × Bool => !r.2) ∘ (fun m => (m, decide (m ≠ m0)))) =
        (fun m => decide (m = m0)) := by
      funext m
      by_cases h : m = m0 <;> simp [h]
    rw [hpred, ← List.countP_eq_length_filter]
    exact countP_eq_one_of_nodup_mem members m0 hnd hm0
  refine ⟨hmap, ?_, ?_, ?_⟩
  · show (m0, false) ∈ members.map (extract_single_member runExtract)
    rw [hmap]
    exact List.mem_map.mpr ⟨m0, hm0, by simp⟩
  · intro m hm h
    show (m, true) ∈ members.map (extract_single_member runExtract)
    rw [hmap]
    exact List.mem_map.mpr ⟨m, hm, by simp [h]⟩
  · show Except.ok (((members.map (extract_single_member runExtract)).filter
      (fun r => !r.2)).length) = Except.ok 1
    rw [hmap, hcount]

/-- Witness for C2: a 10-unit batch in which only unit `u05` fails. -/
theorem c2_unit_failure_isolated_witness :
    ([codes "u01", codes "u02", codes "u03", codes "u04", codes "u05", codes "u06",
      codes "u07", codes "u08", codes "u09", codes "u10"].Nodup ∧
     codes "u05" ∈ [codes "u01", codes "u02", codes "u03", codes "u04", codes "u05",
      codes "u06", codes "u07", codes "u08", codes "u09", codes "u10"]) ∧
    (codes "u05", false) ∈ (restore_from_archive true true
      (.ok [codes "u01", codes "u02", codes "u03", codes "u04", codes "u05", codes "u06",
        codes "u07", codes "u08", codes "u09", codes "u10"])
      (fun m => if m = codes "u05" then .error (codes "boom") else .ok ())).results ∧
    (restore_from_archive true true
      (.ok [codes "u01", codes "u02", codes "u03", codes "u04", codes "u05", codes "u06",
        codes "u07", codes "u08", codes "u09", codes "u10"])
      (fun m => if m = codes "u05" then .error (codes "boom") else .ok ())).outcome =
      .ok 1 :=
  ⟨⟨by decide, by decide⟩,
    (c2_unit_failure_isolated _ _ true (codes "u05") (codes "boom") (by decide) (by decide)
      (by simp) (by intro m _ h; simp [h])).2.1,
    (c2_unit_failure_isolated _ _ true (codes "u05") (codes "boom") (by decide) (by decide)
      (by simp) (by intro m _ h; simp [h])).2.2.2⟩

/-- C4: a wrong-password RuntimeError raised while listing the archive
under a supplied password is converted into the authentication
`ValueError` with no member directory pre-created, no extraction work unit
dispatched, and no unit result — the failure precedes all extraction
side effects. -/
theorem c4_wrong_password_fails_fast (msg : Name) (runExtract : Name → Except Name Unit)
    (hmatch : pwErrMatches msg = true) :
    restore_from_archive true true (.runtimeErr msg) runExtract =
      ⟨[], [], [], .error .badPasswordValueError⟩ := by
  unfold restore_from_archive
  simp [hmatch]

/-- Witness for C4 on the message pyzipper actually raises. -/
theorem c4_wrong_password_fails_fast_witness :
    pwErrMatches (codes "Bad password for file") = true ∧
    restore_from_archive true true (.runtimeErr (codes "Bad password for file"))
        (fun _ => .ok ()) =
      ⟨[], [], [], .error .badPasswordValueError⟩ :=
  ⟨by decide, c4_wrong_password_fails_fast _ _ (by decide)⟩

/-- C7: batch-failure escalation is asymmetric — any failed fragment write
makes `split_file` raise an error carrying the failed names, any failed
copy makes `copy_fragments_to_usb` raise likewise, while
`restore_from_archive` with a failed extraction unit still completes
normally, reporting only a positive failure count. -/
theorem c7_batch_failure_asymmetry :
    (∀ (writeOk : Name → Bool) (data : List Byte) (base : Name) (size : Int)
      (frag : Name × List Byte),
      frag ∈ fragList base 0 (readChunks size data) → writeOk frag.1 = false →
      ∃ failedNames, failedNames ≠ [] ∧ frag.1 ∈ failedNames ∧
        split_file writeOk (some data) base size =
          .error (.fragmentWriteFailed failedNames)) ∧
    (∀ (copyOk : Name → Bool) (d : Dir) (f : Name),
      f ∈ d.listing → substrAt f (codes ".part") = true → copyOk f = false →
      ∃ failedNames, failedNames ≠ [] ∧ f ∈ failedNames ∧
        copy_fragments_to_usb copyOk d = .error (.copyFailed failedNames)) ∧
    (∀ (pg : Bool) (members : List Name) (runExtract : Name → Except Name Unit)
      (m0 e : Name),
      m0 ∈ members → runExtract m0 = .error e →
      ∃ n, 0 < n ∧
        (restore_from_archive true pg (.ok members) runExtract).outcome = .ok n) := by
  refine ⟨?_, ?_, ?_⟩
  · intro writeOk data base size frag hfrag hw
    have hmem : frag.1 ∈ (((fragList base 0 (readChunks size data)).map
        (fun p => (p.1, writeOk p.1))).filter (fun r => !r.2)).map Prod.fst := by
      apply List.mem_map.mpr
      refine ⟨(frag.1, false), ?_, rfl⟩
      apply List.mem_filter.mpr
      refine ⟨?_, by simp⟩
      apply List.mem_map.mpr
      exact ⟨frag, hfrag, by rw [hw]⟩
    refine ⟨_, List.ne_nil_of_mem hmem, hmem, ?_⟩
    rw [split_file_some]
    rw [if_neg (by rw [List.isEmpty_iff]; exact List.ne_nil_of_mem hmem)]
  · intro copyOk d f hf hsub hc
    have hmem0 : (f, false) ∈ ((d.listing.filter (fun f2 => substrAt f2 (codes ".part"))).map
        (fun f2 => (f2, copyOk f2))).filter (fun r => !r.2) := by
      apply List.mem_filter.mpr
      refine ⟨?_, by simp⟩
      apply List.mem_map.mpr
      exact ⟨f, List.mem_filter.mpr ⟨hf, hsub⟩, by rw [hc]⟩
    have hmem : f ∈ (((d.listing.filter (fun f2 => substrAt f2 (codes ".part"))).map
        (fun f2 => (f2, copyOk f2))).filter (fun r => !r.2)).map Prod.fst :=
      List.mem_map.mpr ⟨(f, false), hmem0, rfl⟩
    refine ⟨(((d.listing.filter (fun f2 => substrAt f2 (codes ".part"))).map
        (fun f2 => (f2, copyOk f2))).filter (fun r => !r.2)).map Prod.fst,
      List.ne_nil_of_mem hmem, hmem, ?_⟩
    unfold copy_fragments_to_usb
    rw [if_neg (by rw [List.isEmpty_iff]; exact List.ne_nil_of_mem hmem0)]
  · intro pg members runExtract m0 e hm0 hfail
    have hne : members ≠ [] := List.ne_nil_of_mem hm0
    have hmem : (m0, false) ∈ (members.map (extract_single_member runExtract)).filter
        (fun r => !r.2) := by
      apply List.mem_filter.mpr
      refine ⟨?_, by simp⟩
      apply List.mem_map.mpr
      refine ⟨m0, hm0, ?_⟩
      unfold extract_single_member
      rw [hfail]
    refine ⟨((members.map (extract_single_member runExtract)).filter
      (fun r => !r.2)).length, ?_, ?_⟩
    · rw [List.length_pos]
      exact List.ne_nil_of_mem hmem
    · rw [restore_ok_members pg members runExtract hne]

/-- Witness for C7: a failed fragment write, a failed USB copy, and a
failed extraction unit, each at a one-element batch. -/
theorem c7_batch_failure_asymmetry_witness :
    (((fragName (codes "a") 1, [9]) ∈ fragList (codes "a") 0 (readChunks 1 [9]) ∧
      (fun n => n != fragName (codes "a") 1) (fragName (codes "a") 1, ([9] : List Byte)).1 =
        false) ∧
     (codes "x.part001" ∈ [codes "x.part001"] ∧
      substrAt (codes "x.part001") (codes ".part") = true) ∧
     codes "m1" ∈ [codes "m1"]) ∧
    (∃ failedNames, failedNames ≠ [] ∧ (fragName (codes "a") 1, ([9] : List Byte)).1 ∈
        failedNames ∧
      split_file (fun n => n != fragName (codes "a") 1) (some [9]) (codes "a") 1 =
        .error (.fragmentWriteFailed failedNames)) ∧
    (∃ failedNames, failedNames ≠ [] ∧ codes "x.part001" ∈ failedNames ∧
      copy_fragments_to_usb (fun _ => false) ⟨[codes "x.part001"], fun _ => []⟩ =
        .error (.copyFailed failedNames)) ∧
    (∃ n, 0 < n ∧ (restore_from_archive true false (.ok [codes "m1"])
        (fun _ => .error (codes "err"))).outcome = .ok n) :=
  ⟨⟨⟨by decide, by decide⟩, ⟨by decide, by decide⟩, by decide⟩,
    c7_batch_failure_asymmetry.1 _ [9] (codes "a") 1 _ (by decide) (by decide),
    c7_batch_failure_asymmetry.2.1 (fun _ => false) ⟨[codes "x.part001"], fun _ => []⟩
      (codes "x.part001") (by decide) (by decide) rfl,
    c7_batch_failure_asymmetry.2.2 false [codes "m1"] (fun _ => .error (codes "err"))
      (codes "m1") (codes "err") (by decide) rfl⟩

/-- C5: arcname derivation — the spec's concrete instance holds, a file
matching no source folder gets its base filename, and whenever some source
folder is a prefix of the file's path the longest matching folder is
chosen and the arcname is the path relative to that folder's parent
directory; the archive writer records each enumerated file under its
computed arcname. -/
theorem c5_arcname_derivation :
    computeArcname [codes "/a", codes "/a/b"] (codes "/a/b/c.txt") = codes "b/c.txt" ∧
    (∀ (sources : List Name) (fp : Name),
      (∀ s ∈ sources, startsWithL fp s = false) →
      computeArcname sources fp = basename fp) ∧
    (∀ (sources : List Name) (fp sf : Name), sf ∈ sources → startsWithL fp sf = true →
      ∃ m, matchedSourceFolder sources fp = some m ∧ m ∈ sources ∧
        startsWithL fp m = true ∧
        (∀ s ∈ sources, startsWithL fp s = true → s.length ≤ m.length) ∧
        computeArcname sources fp = relpath fp (dirname m)) ∧
    (∀ (sources files : List Name) (fp : Name), fp ∈ files →
      (computeArcname sources fp, fp) ∈ create_backup_archive sources files) := by
  refine ⟨by decide, ?_, ?_, ?_⟩
  · intro sources fp h
    unfold computeArcname matchedSourceFolder
    rw [msf_none fp sources none h]
  · intro sources fp sf hsf hsw
    obtain ⟨L1, L2, L3⟩ := msf_loop fp sources none (fun m hm => Option.noConfusion hm)
    obtain ⟨m, hm, _⟩ := L2 sf hsf hsw
    obtain ⟨hmsw, hmem⟩ := L1 m hm
    have hmem2 : m ∈ sources := by
      rcases hmem with h | h
      · exact Option.noConfusion h
      · exact h
    refine ⟨m, hm, hmem2, hmsw, ?_, ?_⟩
    · intro s hs hssw
      obtain ⟨m2, hm2, hle⟩ := L2 s hs hssw
      rw [hm] at hm2
      cases hm2
      exact hle
    · unfold computeArcname matchedSourceFolder
      rw [hm]
  · intro sources files fp hfp
    exact List.mem_map.mpr ⟨fp, hfp, rfl⟩

/-- Witness for C5: the no-match case, the `[/a, /a/b]` specificity case,
and the writer's recorded pair. -/
theorem c5_arcname_derivation_witness :
    ((∀ s ∈ [codes "/x"], startsWithL (codes "/a/c.txt") s = false) ∧
     codes "/a" ∈ [codes "/a", codes "/a/b"] ∧
     startsWithL (codes "/a/b/c.txt") (codes "/a") = true ∧
     codes "f" ∈ [codes "f"]) ∧
    computeArcname [codes "/x"] (codes "/a/c.txt") = basename (codes "/a/c.txt") ∧
    (∃ m, matchedSourceFolder [codes "/a", codes "/a/b"] (codes "/a/b/c.txt") = some m ∧
      m ∈ [codes "/a", codes "/a/b"] ∧ startsWithL (codes "/a/b/c.txt") m = true ∧
      (∀ s ∈ [codes "/a", codes "/a/b"], startsWithL (codes "/a/b/c.txt") s = true →
        s.length ≤ m.length) ∧
      computeArcname [codes "/a", codes "/a/b"] (codes "/a/b/c.txt") =
        relpath (codes "/a/b/c.txt") (dirname m)) ∧
    (computeArcname [] (codes "f"), codes "f") ∈ create_backup_archive [] [codes "f"] :=
  ⟨⟨by decide, by decide, by decide, by decide⟩,
    c5_arcname_derivation.2.1 [codes "/x"] (codes "/a/c.txt") (by decide),
    c5_arcname_derivation.2.2.1 [codes "/a", codes "/a/b"] (codes "/a/b/c.txt")
      (codes "/a") (by decide) (by decide),
    c5_arcname_derivation.2.2.2 [] [codes "f"] (codes "f") (by decide)⟩

end BackupOpt
